import Mathlib

/-!
Verification of the unique-kmers streaming scanner (src/src/main.rs).

The Rust source is shallowly embedded below: byte slices become `List Nat`
(one `Nat` per byte), the `FxHashMap<Vec<u8>, bool>` becomes an association
list queried only through `lookup`, `u32`/`i32` arithmetic is modelled on
`Nat`/`Int` with explicit reduction modulo 2^32 where the source performs
machine arithmetic, and the `f32` averages are modelled as exact rationals
(the source divides an `i32` sum by a window length of at most 10; the
comparison `avg_accel.abs() < 20.0` agrees with the exact rational
comparison for every sum/length pair whose quotient a nearest-even rounding
cannot move across 20). `println!` output and channel sends are modelled as
lists of emitted strings and `(reads, kmers)` pairs carried in the scan
state; the early `break` is modelled by a `stopped` flag that makes the
record loop stop consuming input.
-/

set_option autoImplicit false

namespace UniqueKmers

/-- Complement of one byte as performed inside `reverse_complement`
(main.rs lines 54-60): `A`(65)↔`T`(84), `C`(67)↔`G`(71), anything else
is returned unchanged. -/
def complement (c : Nat) : Nat :=
  if c = 65 then 84
  else if c = 84 then 65
  else if c = 67 then 71
  else if c = 71 then 67
  else c

/-- Embedding of `reverse_complement` (main.rs lines 51-62): reverse the
byte order, then complement each byte. -/
def reverse_complement (kmer : List Nat) : List Nat :=
  kmer.reverse.map complement

/-- Lexicographic `<=` on byte slices, the order used by Rust for
`kmer <= rc.as_slice()`: compare bytewise, a strict prefix is smaller. -/
def leLex : List Nat → List Nat → Bool
  | [], _ => true
  | _ :: _, [] => false
  | x :: xs, y :: ys => if x < y then true else if y < x then false else leLex xs ys

/-- Embedding of `canonical_kmer` (main.rs lines 65-72): the
lexicographically smaller of the k-mer and its reverse complement,
preferring the original on ties. -/
def canonical_kmer (kmer : List Nat) : List Nat :=
  let rc := reverse_complement kmer
  if leLex kmer rc then kmer else rc

/-- State of the solidity tracker: the `unique_kmers` map (as an
association list; the Rust hash map is observed only through key lookup
and key insertion/update, which the list models key-for-key) together with
the `unique_solid_kmers` counter.  The counter is a `u32` in the source;
it is carried here as an unbounded `Nat` and reduced mod 2^32 at every
site where the source reads it as a `u32`, which is equivalent because
`(· + 1)` commutes with `· % 2^32`. -/
structure KmerState where
  table : List (List Nat × Bool)
  solid : Nat
deriving DecidableEq

/-- First-match key lookup in the association list, modelling
`unique_kmers.get_mut(&canonical)` (main.rs line 160). -/
def lookup : List (List Nat × Bool) → List Nat → Option Bool
  | [], _ => none
  | (k, v) :: rest, key => if k = key then some v else lookup rest key

/-- Set the value at the first entry matching `key` to `true`, modelling
`*seen = true` through the `get_mut` reference (main.rs line 163). -/
def setSolid : List (List Nat × Bool) → List Nat → List (List Nat × Bool)
  | [], _ => []
  | (k, v) :: rest, key =>
      if k = key then (k, true) :: rest else (k, v) :: setSolid rest key

/-- One iteration of the k-mer loop body (main.rs lines 158-170):
canonicalize the window, then on a first sighting insert the key with
flag `false`, on a second sighting flip the flag and bump the counter,
and on later sightings do nothing. -/
def observe (st : KmerState) (window : List Nat) : KmerState :=
  let canonical := canonical_kmer window
  match lookup st.table canonical with
  | some seen =>
      if seen then st
      else { table := setSolid st.table canonical, solid := st.solid + 1 }
  | none => { table := (canonical, false) :: st.table, solid := st.solid }

/-- The value 2^32, the modulus of `u32` arithmetic. -/
def U32MOD : Nat := 4294967296

/-- Reduction of a `Nat` to the `u32` it denotes (`as u32`). -/
def u32ofNat (v : Nat) : Nat := v % U32MOD

/-- Reinterpretation of a `u32` value (already < 2^32) as an `i32`
(`as i32` on a `u32`): values at or above 2^31 become negative. -/
def i32ofU32 (v : Nat) : Int :=
  if v < 2147483648 then (v : Int) else (v : Int) - 4294967296

/-- Wrapping of an integer into the `i32` range, modelling release-mode
`i32` overflow semantics. -/
def wrapI32 (x : Int) : Int := (x + 2147483648) % 4294967296 - 2147483648

/-- Wrapping `i32` sum of a list, modelling `.iter().sum::<i32>()`. -/
def sumI32 (l : List Int) : Int := l.foldl (fun a b => wrapI32 (a + b)) 0

/-- Push a sample onto a sliding window and evict the oldest entry when
the length exceeds 10, modelling `history.push(x); if history.len() > 10
{ history.remove(0); }` (main.rs lines 179-182 and 188-191). -/
def pushCap10 (h : List Int) (x : Int) : List Int :=
  let h2 := h ++ [x]
  if h2.length > 10 then h2.drop 1 else h2

/-- Format a rational with one decimal place, modelling Rust's `{:.1}`
formatting: the value times ten is rounded to the nearest integer (ties
to even) working on the numerator and positive denominator — `fl` is the
floor of `10 q` and the remainder `r` compares to half a denominator —
and the sign is printed whenever the value is negative, also when the
rounded magnitude is zero, matching Rust's formatting of small negative
values. -/
def fmt1 (q : ℚ) : String :=
  let n10 : ℤ := q.num * 10
  let d : ℤ := (q.den : ℤ)
  let fl : ℤ := n10.fdiv d
  let r : ℤ := n10 - fl * d
  let t : ℤ :=
    if 2 * r < d then fl
    else if d < 2 * r then fl + 1
    else if fl % 2 = 0 then fl else fl + 1
  let sign := if q.num < 0 then "-" else ""
  sign ++ toString (t.natAbs / 10) ++ "." ++ toString (t.natAbs % 10)

/-- The list of k-length windows of a record, in left-to-right order,
modelling `for i in 0..=(sequence.len() - k)` with `&sequence[i..i + k]`
(main.rs lines 157-158); meaningful when `k ≤ sequence.length`. -/
def recordWindows (k : Nat) (sequence : List Nat) : List (List Nat) :=
  (List.range (sequence.length - k + 1)).map (fun i => (sequence.drop i).take k)

/-- The `unique_kmers`/`unique_solid_kmers` state before any observation
(main.rs lines 122-123). -/
def initKmer : KmerState := { table := [], solid := 0 }

/-- State of the record loop in `main` (main.rs lines 122-147): the
solidity tracker, `prev_kmers`, both sliding windows, the 0-based record
index `idx`, plus the observable history — channel sends (`tx.send`),
printed status lines, the termination message when printed, and whether
the loop has executed `break`. -/
structure ScanState where
  st : KmerState
  prevKmers : Nat
  growth_history : List Int
  accel_history : List Int
  idx : Nat
  events : List (Nat × Nat)
  statusLines : List String
  stopMsg : Option String
  stopped : Bool
deriving DecidableEq

/-- The solidity-tracker state after the k-mer loop of one record of
length ≥ k (main.rs lines 157-171), starting from the tracker state
carried in `s`. -/
def trackerAfter (k : Nat) (s : ScanState) (sequence : List Nat) : KmerState :=
  (recordWindows k sequence).foldl observe s.st

/-- The `growth` value of the sampling block (main.rs line 177):
`kmers as i32 - prev_kmers as i32` with wrapping `i32` subtraction. -/
def growthOf (k : Nat) (s : ScanState) (sequence : List Nat) : Int :=
  wrapI32 (i32ofU32 (u32ofNat (trackerAfter k s sequence).solid) - i32ofU32 s.prevKmers)

/-- The `growth_history` window after the push/evict of the sampling block
(main.rs lines 179-182). -/
def ghOf (k : Nat) (s : ScanState) (sequence : List Nat) : List Int :=
  pushCap10 s.growth_history (growthOf k s sequence)

/-- The `accel_history` window after the sampling block (main.rs lines
185-192): when the growth window holds at least two entries, the wrapping
difference of its last two entries is pushed with the same eviction. -/
def ahOf (k : Nat) (s : ScanState) (sequence : List Nat) : List Int :=
  let gh := ghOf k s sequence
  if 2 ≤ gh.length then
    pushCap10 s.accel_history
      (wrapI32 (gh.getD (gh.length - 1) 0 - gh.getD (gh.length - 2) 0))
  else s.accel_history

/-- The `avg_growth` of the sampling block (main.rs line 195), with the
`f32` division of the window sum by the window length modelled as exact
rational division (built with `mkRat`). -/
def avgGrowthOf (k : Nat) (s : ScanState) (sequence : List Nat) : ℚ :=
  mkRat (sumI32 (ghOf k s sequence)) (ghOf k s sequence).length

/-- The `avg_accel` of the sampling block (main.rs lines 196-200): the
mean of the acceleration window, or 0 while that window is empty. -/
def avgAccelOf (k : Nat) (s : ScanState) (sequence : List Nat) : ℚ :=
  if (ahOf k s sequence).isEmpty then 0
  else mkRat (sumI32 (ahOf k s sequence)) (ahOf k s sequence).length

/-- The body of `while let Some(seq_result) = reader.next_record()` for one
already-decoded record (main.rs lines 150-222): skip records shorter than
`k` (which still advance `idx` but perform no sampling), observe every
window, and at indices divisible by 10000 run the convergence monitor —
push the growth delta, derive the acceleration, compute both averages,
print a status line, send `(reads, kmers)` on the channel, and break with
the termination message when `reads > 50000 && avg_accel.abs() < 20.0`. -/
def processRecord (k : Nat) (s : ScanState) (sequence : List Nat) : ScanState :=
  if sequence.length < k then
    { s with idx := s.idx + 1 }
  else
    let st2 := trackerAfter k s sequence
    if s.idx % 10000 = 0 then
      let reads : Nat := u32ofNat s.idx
      let kmers : Nat := u32ofNat st2.solid
      let gh := ghOf k s sequence
      let ah := ahOf k s sequence
      let avg_growth : ℚ := avgGrowthOf k s sequence
      let avg_accel : ℚ := avgAccelOf k s sequence
      let line :=
        "Processed " ++ toString reads ++ " reads, unique k-mers: " ++
        toString kmers ++ ", Δ_avg: " ++ fmt1 avg_growth ++
        ", Δ²_avg: " ++ fmt1 avg_accel
      if 50000 < reads ∧ |avg_accel| < 20 then
        { s with
            st := st2
            growth_history := gh
            accel_history := ah
            events := s.events ++ [(reads, kmers)]
            statusLines := s.statusLines ++ [line]
            stopMsg := some ("Stopping early: acceleration average " ++
              fmt1 avg_accel ++ " < 50 after " ++ toString reads ++ " reads.")
            stopped := true }
      else
        { s with
            st := st2
            prevKmers := kmers
            growth_history := gh
            accel_history := ah
            events := s.events ++ [(reads, kmers)]
            statusLines := s.statusLines ++ [line]
            idx := s.idx + 1 }
    else
      { s with st := st2, idx := s.idx + 1 }

/-- The record loop (main.rs lines 149-223) over a pre-decoded stream:
each element is either the next record's bytes or a decode failure.
A decode failure aborts the scan with the error (`seq_result?`); the
`break` taken inside `processRecord` stops consuming further records;
end of stream returns the final state successfully. -/
def scanRecords (k : Nat) : List (Except String (List Nat)) → ScanState → Except String ScanState
  | [], s => Except.ok s
  | r :: rest, s =>
      match r with
      | Except.error e => Except.error e
      | Except.ok sequence =>
          let s2 := processRecord k s sequence
          if s2.stopped then Except.ok s2 else scanRecords k rest s2

/-- The state set up by `main` before the record loop (main.rs lines
122-147): empty map, zero counter, `prev_kmers = 0`, empty histories,
`idx = 0`, and nothing emitted yet. -/
def initState : ScanState :=
  { st := { table := [], solid := 0 }
    prevKmers := 0
    growth_history := []
    accel_history := []
    idx := 0
    events := []
    statusLines := []
    stopMsg := none
    stopped := false }

/-- A whole scan from the initial state. -/
def runScan (k : Nat) (records : List (Except String (List Nat))) :
    Except String ScanState :=
  scanRecords k records initState

/-- Specification-side count: how many of the observed windows canonicalize
to `c`. -/
def canonCount (ws : List (List Nat)) (c : List Nat) : Nat :=
  (ws.map canonical_kmer).count c

/-- Specification-side solid count: the number of distinct canonical k-mers
that occur at least twice among the observed windows. -/
def solidSpec (ws : List (List Nat)) : Nat :=
  ((ws.map canonical_kmer).toFinset.filter
    (fun c => 2 ≤ (ws.map canonical_kmer).count c)).card

/-! ## Properties of the canonicalizer -/

theorem complement_complement (c : Nat) : complement (complement c) = c := by
  unfold complement
  split_ifs <;> omega

theorem map_complement_map_complement (l : List Nat) :
    (l.map complement).map complement = l := by
  induction l with
  | nil => rfl
  | cons a t ih => simp [complement_complement, ih]

theorem reverse_complement_involutive (w : List Nat) :
    reverse_complement (reverse_complement w) = w := by
  unfold reverse_complement
  rw [List.map_reverse, map_complement_map_complement, List.reverse_reverse]

theorem leLex_total (a b : List Nat) : leLex a b = true ∨ leLex b a = true := by
  induction a generalizing b with
  | nil => left; rfl
  | cons x xs ih =>
      cases b with
      | nil => right; rfl
      | cons y ys =>
          by_cases hxy : x < y
          · left; simp [leLex, hxy]
          · by_cases hyx : y < x
            · right; simp [leLex, hyx]
            · have hxy2 : x = y := le_antisymm (not_lt.mp hyx) (not_lt.mp hxy)
              subst hxy2
              rcases ih ys with h | h
              · left; simpa [leLex] using h
              · right; simpa [leLex] using h

theorem leLex_antisymm (a b : List Nat) (hab : leLex a b = true)
    (hba : leLex b a = true) : a = b := by
  induction a generalizing b with
  | nil => cases b with
      | nil => rfl
      | cons y ys => simp [leLex] at hba
  | cons x xs ih =>
      cases b with
      | nil => simp [leLex] at hab
      | cons y ys =>
          by_cases hxy : x < y
          · simp [leLex, hxy, not_lt.mpr (le_of_lt hxy), lt_irrefl] at hba
          · by_cases hyx : y < x
            · simp [leLex, hxy, hyx] at hab
            · have hxy2 : x = y := le_antisymm (not_lt.mp hyx) (not_lt.mp hxy)
              subst hxy2
              simp [leLex] at hab hba
              rw [ih ys hab hba]

/-- C5: canonicalization is idempotent and reverse-complement-symmetric. -/
theorem C5_canonical_idempotent_and_rc_symmetric (w : List Nat) :
    canonical_kmer (canonical_kmer w) = canonical_kmer w ∧
    canonical_kmer w = canonical_kmer (reverse_complement w) := by
  unfold canonical_kmer
  simp only []
  by_cases h : leLex w (reverse_complement w) = true
  · constructor
    · simp [h]
    · simp only [h, if_true]
      by_cases h2 : leLex (reverse_complement w) (reverse_complement (reverse_complement w)) = true
      · rw [reverse_complement_involutive] at h2 ⊢
        simp only [h2, if_true]
        exact leLex_antisymm w (reverse_complement w) h h2
      · rw [reverse_complement_involutive] at h2 ⊢
        simp [h2, reverse_complement_involutive]
  · have h2 : leLex (reverse_complement w) w = true :=
      (leLex_total w (reverse_complement w)).resolve_left h
    constructor
    · simp only [h, if_false]
      have h3 : leLex (reverse_complement w) (reverse_complement (reverse_complement w)) = true := by
        rw [reverse_complement_involutive]; exact h2
      simp [h3]
    · simp only [h, if_false, reverse_complement_involutive, h2, if_true]
      simp [h, h2]

/-! ## Properties of the solidity tracker -/

theorem observe_solid_cases (st : KmerState) (w : List Nat) :
    (observe st w).solid = st.solid ∨ (observe st w).solid = st.solid + 1 := by
  unfold observe
  simp only []
  split
  · split
    · left; rfl
    · right; rfl
  · left; rfl

theorem observe_solid_le (st : KmerState) (w : List Nat) :
    st.solid ≤ (observe st w).solid := by
  rcases observe_solid_cases st w with h | h <;> omega

theorem foldl_observe_solid_le (ws : List (List Nat)) (st : KmerState) :
    st.solid ≤ (ws.foldl observe st).solid := by
  induction ws generalizing st with
  | nil => exact le_refl _
  | cons w t ih => exact le_trans (observe_solid_le st w) (ih _)

/-- C9: the solid counter is monotone along any observation stream and a
single observe step raises it by at most 1. -/
theorem C9_solid_monotone (st : KmerState) (w : List Nat) (ws : List (List Nat)) :
    ((observe st w).solid = st.solid ∨ (observe st w).solid = st.solid + 1) ∧
    st.solid ≤ (ws.foldl observe st).solid :=
  ⟨observe_solid_cases st w, foldl_observe_solid_le ws st⟩

/-! ## The scan on concrete and degenerate inputs -/

/-- C3: the empty record stream is not an error — the scan returns
successfully with zero solid k-mers, record index 0, and nothing
emitted. -/
theorem C3_empty_stream (k : Nat) :
    runScan k [] = Except.ok initState ∧ initState.st.solid = 0 ∧
    initState.idx = 0 ∧ initState.events = [] ∧
    initState.statusLines = [] ∧ initState.stopMsg = none ∧
    initState.stopped = false :=
  ⟨rfl, rfl, rfl, rfl, rfl, rfl, rfl⟩

/-- C1 counterexample: on "AAATTT" with k = 3 the windows "AAT" and "ATT"
canonicalize to the same k-mer (they are reverse complements of each
other), and after the four windows the solid counter is 2, not 1. -/
theorem C1_counterexample :
    canonical_kmer [65, 65, 84] = canonical_kmer [65, 84, 84] ∧
    ((recordWindows 3 [65, 65, 65, 84, 84, 84]).foldl observe initKmer).solid = 2 := by
  decide

/-- C1 amended: on "AAATTT" with k = 3, canonical("AAA") = canonical("TTT")
= "AAA" and canonical("AAT") = canonical("ATT") = "AAT"; observing the four
windows left to right leaves the counter at 0 after "AAA" and "AAT", raises
it to 1 at "ATT" (second sighting of canonical "AAT"), and to 2 at "TTT"
(second sighting of canonical "AAA"). -/
theorem C1_amended_trace :
    canonical_kmer [65, 65, 65] = [65, 65, 65] ∧
    canonical_kmer [84, 84, 84] = [65, 65, 65] ∧
    canonical_kmer [65, 65, 84] = [65, 65, 84] ∧
    canonical_kmer [65, 84, 84] = [65, 65, 84] ∧
    recordWindows 3 [65, 65, 65, 84, 84, 84] =
      [[65, 65, 65], [65, 65, 84], [65, 84, 84], [84, 84, 84]] ∧
    ([[65, 65, 65]].foldl observe initKmer).solid = 0 ∧
    ([[65, 65, 65], [65, 65, 84]].foldl observe initKmer).solid = 0 ∧
    ([[65, 65, 65], [65, 65, 84], [65, 84, 84]].foldl observe initKmer).solid = 1 ∧
    ((recordWindows 3 [65, 65, 65, 84, 84, 84]).foldl observe initKmer).solid = 2 := by
  decide

/-! ## The sliding windows -/

theorem pushCap10_length_le (h : List Int) (x : Int) (hle : h.length ≤ 10) :
    (pushCap10 h x).length ≤ 10 := by
  simp only [pushCap10]
  split
  · simp only [List.length_drop, List.length_append, List.length_cons,
      List.length_nil]
    omega
  · next hgt =>
      simp only [List.length_append, List.length_cons, List.length_nil] at hgt ⊢
      omega

theorem pushCap10_foldl_eq_drop (l : List Int) :
    List.foldl pushCap10 [] l = l.drop (l.length - 10) := by
  induction l using List.reverseRecOn with
  | nil => rfl
  | append_singleton t x ih =>
      rw [List.foldl_append, List.foldl_cons, List.foldl_nil, ih]
      by_cases h : t.length ≤ 9
      · have h1 : t.length - 10 = 0 := by omega
        have h2 : (t ++ [x]).length - 10 = 0 := by
          simp only [List.length_append, List.length_cons, List.length_nil]
          omega
        rw [h1, List.drop_zero, h2, List.drop_zero]
        simp only [pushCap10]
        rw [if_neg]
        simp only [List.length_append, List.length_cons, List.length_nil]
        omega
      · have hd : (t.drop (t.length - 10)).length = 10 := by
          rw [List.length_drop]; omega
        have hL : pushCap10 (t.drop (t.length - 10)) x = t.drop (t.length - 9) ++ [x] := by
          simp only [pushCap10]
          rw [if_pos (by
            simp only [List.length_append, List.length_cons, List.length_nil, hd]
            omega)]
          rw [List.drop_append_of_le_length (by rw [hd]; omega), List.drop_drop]
          congr 2
          omega
        have hR : (t ++ [x]).drop ((t ++ [x]).length - 10) = t.drop (t.length - 9) ++ [x] := by
          have h2 : (t ++ [x]).length - 10 = t.length - 9 := by
            simp only [List.length_append, List.length_cons, List.length_nil]
            omega
          rw [h2, List.drop_append_of_le_length (by omega)]
        rw [hL, hR]

theorem pushCap10_foldl_length_le (l : List Int) :
    (List.foldl pushCap10 [] l).length ≤ 10 := by
  rw [pushCap10_foldl_eq_drop, List.length_drop]
  omega

theorem ghOf_length_le (k : Nat) (s : ScanState) (sequence : List Nat)
    (hg : s.growth_history.length ≤ 10) :
    (ghOf k s sequence).length ≤ 10 :=
  pushCap10_length_le _ _ hg

theorem ahOf_length_le (k : Nat) (s : ScanState) (sequence : List Nat)
    (ha : s.accel_history.length ≤ 10) :
    (ahOf k s sequence).length ≤ 10 := by
  simp only [ahOf]
  split
  · exact pushCap10_length_le _ _ ha
  · exact ha

theorem processRecord_window_lengths (k : Nat) (s : ScanState) (sequence : List Nat)
    (hg : s.growth_history.length ≤ 10) (ha : s.accel_history.length ≤ 10) :
    (processRecord k s sequence).growth_history.length ≤ 10 ∧
    (processRecord k s sequence).accel_history.length ≤ 10 := by
  simp only [processRecord]
  split
  · exact ⟨hg, ha⟩
  · split
    · split
      · exact ⟨ghOf_length_le k s sequence hg, ahOf_length_le k s sequence ha⟩
      · exact ⟨ghOf_length_le k s sequence hg, ahOf_length_le k s sequence ha⟩
    · exact ⟨hg, ha⟩

theorem scanRecords_window_lengths (k : Nat) (records : List (Except String (List Nat)))
    (s s2 : ScanState) (hg : s.growth_history.length ≤ 10)
    (ha : s.accel_history.length ≤ 10)
    (hrun : scanRecords k records s = Except.ok s2) :
    s2.growth_history.length ≤ 10 ∧ s2.accel_history.length ≤ 10 := by
  induction records generalizing s with
  | nil =>
      simp only [scanRecords] at hrun
      cases hrun
      exact ⟨hg, ha⟩
  | cons r rest ih =>
      cases r with
      | error e =>
          simp only [scanRecords] at hrun
          cases hrun
      | ok sequence =>
          simp only [scanRecords] at hrun
          rcases processRecord_window_lengths k s sequence hg ha with ⟨hg2, ha2⟩
          by_cases hstop : (processRecord k s sequence).stopped = true
          · rw [if_pos hstop] at hrun
            cases hrun
            exact ⟨hg2, ha2⟩
          · rw [if_neg hstop] at hrun
            exact ih _ hg2 ha2 hrun

/-- C8: sliding windows hold at most 10 entries with strict FIFO eviction:
a window built from the last pushes equals the last (up to) 10 samples, so
after pushing samples 1..15 it holds samples 6..15; and along any
successful scan both the growth and the acceleration window stay within
capacity 10. -/
theorem C8_sliding_windows (l : List Int) (k : Nat)
    (records : List (Except String (List Nat))) (s2 : ScanState)
    (hrun : runScan k records = Except.ok s2) :
    List.foldl pushCap10 [] l = l.drop (l.length - 10) ∧
    (List.foldl pushCap10 [] l).length ≤ 10 ∧
    List.foldl pushCap10 [] [1, 2, 3, 4, 5, 6, 7, 8, 9, 10, 11, 12, 13, 14, 15] =
      [6, 7, 8, 9, 10, 11, 12, 13, 14, 15] ∧
    s2.growth_history.length ≤ 10 ∧ s2.accel_history.length ≤ 10 := by
  refine ⟨pushCap10_foldl_eq_drop l, pushCap10_foldl_length_le l, by decide, ?_⟩
  exact scanRecords_window_lengths k records initState s2 (by decide) (by decide) hrun

/-- C8 witness: the general statement applied to the singleton push list
and the empty scan. -/
theorem C8_sliding_windows_witness :
    List.foldl pushCap10 [] [(5 : Int)] = [(5 : Int)].drop ([(5 : Int)].length - 10) ∧
    (List.foldl pushCap10 [] [(5 : Int)]).length ≤ 10 ∧
    List.foldl pushCap10 [] [1, 2, 3, 4, 5, 6, 7, 8, 9, 10, 11, 12, 13, 14, 15] =
      [6, 7, 8, 9, 10, 11, 12, 13, 14, 15] ∧
    initState.growth_history.length ≤ 10 ∧ initState.accel_history.length ≤ 10 :=
  C8_sliding_windows [(5 : Int)] 3 [] initState rfl

/-! ## Sampling cadence -/

theorem processRecord_events (k : Nat) (s : ScanState) (sequence : List Nat) :
    (processRecord k s sequence).events =
      s.events ++
        (if s.idx % 10000 = 0 ∧ k ≤ sequence.length then
           [(u32ofNat s.idx, u32ofNat (trackerAfter k s sequence).solid)]
         else []) := by
  simp only [processRecord]
  split
  · next hlen =>
      rw [if_neg (fun hc => absurd hc.2 (not_le.mpr hlen))]
      simp
  · next hlen =>
      have hk : k ≤ sequence.length := not_lt.mp hlen
      by_cases hidx : s.idx % 10000 = 0
      · rw [if_pos hidx,
          if_pos (show s.idx % 10000 = 0 ∧ k ≤ sequence.length from ⟨hidx, hk⟩)]
        split <;> rfl
      · rw [if_neg hidx,
          if_neg (show ¬(s.idx % 10000 = 0 ∧ k ≤ sequence.length) from fun hc => hidx hc.1)]
        simp

theorem processRecord_statusLines_length (k : Nat) (s : ScanState) (sequence : List Nat) :
    (processRecord k s sequence).statusLines.length =
      s.statusLines.length +
        (if s.idx % 10000 = 0 ∧ k ≤ sequence.length then 1 else 0) := by
  simp only [processRecord]
  split
  · next hlen =>
      rw [if_neg (fun hc => absurd hc.2 (not_le.mpr hlen))]
      simp
  · next hlen =>
      have hk : k ≤ sequence.length := not_lt.mp hlen
      by_cases hidx : s.idx % 10000 = 0
      · rw [if_pos hidx,
          if_pos (show s.idx % 10000 = 0 ∧ k ≤ sequence.length from ⟨hidx, hk⟩)]
        split <;> simp
      · rw [if_neg hidx,
          if_neg (show ¬(s.idx % 10000 = 0 ∧ k ≤ sequence.length) from fun hc => hidx hc.1)]
        simp

/-- C2 counterexample: with k = 3, the single record "A" sits at the stride
boundary `idx = 0` (`0 % 10000 = 0`) but is shorter than k, and the scan
consumes it without emitting any status event or channel message. -/
theorem C2_counterexample :
    (0 : Nat) % 10000 = 0 ∧ ([65] : List Nat).length < 3 ∧
    (runScan 3 [Except.ok [65]]).map ScanState.events = Except.ok [] ∧
    (runScan 3 [Except.ok [65]]).map ScanState.statusLines = Except.ok [] ∧
    (runScan 3 [Except.ok [65]]).map ScanState.idx = Except.ok 1 :=
  ⟨rfl, by decide, rfl, rfl, rfl⟩

/-- C2 amended: the monitor is sampled exactly at the records whose 0-based
index is divisible by 10000 and whose length is at least k — one status
line and one channel pair per such record; a record at a stride boundary
that is shorter than k is skipped without being sampled. -/
theorem C2_amended_sampling (k : Nat) (s : ScanState) (sequence : List Nat) :
    (processRecord k s sequence).events =
      s.events ++
        (if s.idx % 10000 = 0 ∧ k ≤ sequence.length then
           [(u32ofNat s.idx, u32ofNat (trackerAfter k s sequence).solid)]
         else []) ∧
    (processRecord k s sequence).statusLines.length =
      s.statusLines.length +
        (if s.idx % 10000 = 0 ∧ k ≤ sequence.length then 1 else 0) :=
  ⟨processRecord_events k s sequence, processRecord_statusLines_length k s sequence⟩

/-! ## The early-stop oracle -/

/-- C6: at a sampling point (record of length ≥ k whose 0-based index is
divisible by 10000, the loop not yet stopped, index within the `u32`
range), the scan breaks out of the record loop if and only if the record
index exceeds 50000 and the absolute value of the average acceleration is
strictly below 20; otherwise it continues to the next record. -/
theorem C6_early_stop_iff (k : Nat) (s : ScanState) (sequence : List Nat)
    (hlen : k ≤ sequence.length) (hidx : s.idx % 10000 = 0)
    (hstop : s.stopped = false) (hmod : s.idx < U32MOD) :
    ((processRecord k s sequence).stopped = true ↔
      (50000 < s.idx ∧ |avgAccelOf k s sequence| < 20)) ∧
    ((processRecord k s sequence).stopped = false →
      (processRecord k s sequence).idx = s.idx + 1) := by
  have hu : u32ofNat s.idx = s.idx := Nat.mod_eq_of_lt hmod
  simp only [processRecord]
  rw [if_neg (not_lt.mpr hlen), if_pos hidx]
  by_cases hc : 50000 < u32ofNat s.idx ∧ |avgAccelOf k s sequence| < 20
  · rw [if_pos hc]
    rw [hu] at hc
    exact ⟨⟨fun _ => hc, fun _ => rfl⟩, fun hfalse => by simp at hfalse⟩
  · rw [if_neg hc]
    rw [hu] at hc
    exact ⟨⟨fun h => by simp [hstop] at h, fun h => absurd h hc⟩, fun _ => rfl⟩

/-- C6 witness: with the index at 60000 and empty windows (so the average
acceleration is 0), a length-3 record triggers the stop. -/
theorem C6_early_stop_iff_witness :
    (processRecord 3 { initState with idx := 60000 } [65, 65, 65]).stopped = true := by
  have h := C6_early_stop_iff 3 { initState with idx := 60000 } [65, 65, 65]
    (by decide) (by decide) rfl (by decide)
  exact h.1.mpr ⟨by decide, by decide⟩

/-- C7: whenever the early-stop oracle fires, the termination message is
exactly the string citing the constant 50, with the average acceleration
formatted to one decimal place and the record index at that sampling
point, even though the enforced comparison is against 20. -/
theorem C7_stop_message (k : Nat) (s : ScanState) (sequence : List Nat)
    (hlen : k ≤ sequence.length) (hidx : s.idx % 10000 = 0)
    (hcond : 50000 < u32ofNat s.idx ∧ |avgAccelOf k s sequence| < 20) :
    (processRecord k s sequence).stopMsg =
      some ("Stopping early: acceleration average " ++ fmt1 (avgAccelOf k s sequence) ++
        " < 50 after " ++ toString (u32ofNat s.idx) ++ " reads.") := by
  simp only [processRecord]
  rw [if_neg (not_lt.mpr hlen), if_pos hidx, if_pos hcond]

/-- C7 witness: the concrete stop at index 60000 with average acceleration
0 prints the message verbatim. -/
theorem C7_stop_message_witness :
    (processRecord 3 { initState with idx := 60000 } [65, 65, 65]).stopMsg =
      some "Stopping early: acceleration average 0.0 < 50 after 60000 reads." := by
  have h := C7_stop_message 3 { initState with idx := 60000 } [65, 65, 65]
    (by decide) (by decide) ⟨by decide, by decide⟩
  rw [h]
  decide

/-! ## Event indexing -/

theorem scanRecords_events_extend (k : Nat) (records : List (Except String (List Nat)))
    (s s2 : ScanState) (hrun : scanRecords k records s = Except.ok s2) :
    ∃ tail, s2.events = s.events ++ tail := by
  induction records generalizing s with
  | nil =>
      simp only [scanRecords] at hrun
      cases hrun
      exact ⟨[], (List.append_nil _).symm⟩
  | cons r rest ih =>
      cases r with
      | error e =>
          simp only [scanRecords] at hrun
          cases hrun
      | ok sequence =>
          simp only [scanRecords] at hrun
          by_cases hstop : (processRecord k s sequence).stopped = true
          · rw [if_pos hstop] at hrun
            cases hrun
            exact ⟨_, processRecord_events k s sequence⟩
          · rw [if_neg hstop] at hrun
            rcases ih _ hrun with ⟨t2, ht2⟩
            refine ⟨(if s.idx % 10000 = 0 ∧ k ≤ sequence.length then
              [(u32ofNat s.idx, u32ofNat (trackerAfter k s sequence).solid)]
              else []) ++ t2, ?_⟩
            rw [ht2, processRecord_events k s sequence, List.append_assoc]

/-- C10: an event emitted while processing the record at 0-based index
`s.idx` carries exactly that index as its reads field (the step then
advances the consumed-record count to `s.idx + 1`), and on any stream
whose first record has length ≥ k the scan's first emitted event reports
0 reads together with the solid count after that first record. -/
theorem C10_event_reads (k : Nat) (s : ScanState) (sequence : List Nat)
    (rest : List (Except String (List Nat))) (s2 : ScanState)
    (hmod : s.idx < U32MOD) (hk : k ≤ sequence.length)
    (hrun : runScan k (Except.ok sequence :: rest) = Except.ok s2) :
    ((processRecord k s sequence).events = s.events ∨
      (processRecord k s sequence).events =
        s.events ++ [(s.idx, u32ofNat (trackerAfter k s sequence).solid)]) ∧
    s2.events.head? = some (0, u32ofNat (trackerAfter k initState sequence).solid) := by
  constructor
  · have h := processRecord_events k s sequence
    have hu : u32ofNat s.idx = s.idx := Nat.mod_eq_of_lt hmod
    rw [hu] at h
    by_cases hc : s.idx % 10000 = 0 ∧ k ≤ sequence.length
    · right; rw [h, if_pos hc]
    · left; rw [h, if_neg hc]; simp
  · have h1 : (processRecord k initState sequence).events =
        [(0, u32ofNat (trackerAfter k initState sequence).solid)] := by
      rw [processRecord_events k initState sequence]
      rw [if_pos ⟨rfl, hk⟩]
      rfl
    simp only [runScan, scanRecords] at hrun
    by_cases hstop : (processRecord k initState sequence).stopped = true
    · rw [if_pos hstop] at hrun
      cases hrun
      rw [h1]
      rfl
    · rw [if_neg hstop] at hrun
      rcases scanRecords_events_extend k rest _ s2 hrun with ⟨tail, htail⟩
      rw [htail, h1]
      rfl

/-- C10 witness: the general statement applied to the single record "AAA"
with k = 3 from the initial state. -/
theorem C10_event_reads_witness :
    ((processRecord 3 initState [65, 65, 65]).events = initState.events ∨
      (processRecord 3 initState [65, 65, 65]).events =
        initState.events ++
          [(initState.idx, u32ofNat (trackerAfter 3 initState [65, 65, 65]).solid)]) ∧
    (processRecord 3 initState [65, 65, 65]).events.head? =
      some (0, u32ofNat (trackerAfter 3 initState [65, 65, 65]).solid) :=
  C10_event_reads 3 initState [65, 65, 65] [] (processRecord 3 initState [65, 65, 65])
    (by decide) (by decide) rfl

/-! ## Solidity semantics: second occurrences -/

theorem lookup_setSolid_self (t : List (List Nat × Bool)) (c : List Nat) (v : Bool)
    (h : lookup t c = some v) : lookup (setSolid t c) c = some true := by
  induction t with
  | nil => simp [lookup] at h
  | cons p rest ih =>
      obtain ⟨k, b⟩ := p
      by_cases hk : k = c
      · simp [setSolid, lookup, hk]
      · simp only [lookup, setSolid, if_neg hk] at h ⊢
        exact ih h

theorem lookup_setSolid_ne (t : List (List Nat × Bool)) (c c' : List Nat)
    (h : c' ≠ c) : lookup (setSolid t c) c' = lookup t c' := by
  induction t with
  | nil => rfl
  | cons p rest ih =>
      obtain ⟨k, b⟩ := p
      by_cases hk : k = c
      · subst hk
        simp [setSolid, lookup, Ne.symm h]
      · by_cases hkc : k = c' <;> simp [setSolid, lookup, hk, hkc, ih, h]

theorem lookup_observe (st : KmerState) (w c : List Nat) :
    lookup (observe st w).table c =
      (if canonical_kmer w = c then
        (match lookup st.table (canonical_kmer w) with
         | none => some false
         | some _ => some true)
       else lookup st.table c) := by
  simp only [observe]
  cases hl : lookup st.table (canonical_kmer w) with
  | none =>
      simp only [hl]
      by_cases hc : canonical_kmer w = c
      · subst hc; simp [lookup, hl]
      · simp [lookup, hc]
  | some seen =>
      cases seen with
      | false =>
          simp only [hl]
          by_cases hc : canonical_kmer w = c
          · subst hc
            simp [lookup_setSolid_self st.table _ false hl]
          · simp [lookup_setSolid_ne st.table _ c (Ne.symm hc), hc]
      | true =>
          simp only [hl]
          by_cases hc : canonical_kmer w = c
          · subst hc; simp [hl]
          · simp [hc]

theorem observe_solid_eq (st : KmerState) (w : List Nat) :
    (observe st w).solid =
      st.solid + (if lookup st.table (canonical_kmer w) = some false then 1 else 0) := by
  simp only [observe]
  cases hl : lookup st.table (canonical_kmer w) with
  | none => simp [hl]
  | some seen => cases seen <;> simp [hl]

theorem canonCount_append (ws : List (List Nat)) (w c : List Nat) :
    canonCount (ws ++ [w]) c =
      canonCount ws c + (if canonical_kmer w = c then 1 else 0) := by
  simp [canonCount, List.count_append, List.count_singleton]

theorem foldl_observe_lookup (ws : List (List Nat)) (c : List Nat) :
    lookup ((ws.foldl observe initKmer).table) c =
      (if canonCount ws c = 0 then none
       else if canonCount ws c = 1 then some false
       else some true) := by
  induction ws using List.reverseRecOn generalizing c with
  | nil => simp [initKmer, lookup, canonCount]
  | append_singleton ws w ih =>
      rw [List.foldl_append, List.foldl_cons, List.foldl_nil, lookup_observe,
        canonCount_append]
      by_cases hc : canonical_kmer w = c
      · subst hc
        rw [if_pos rfl, if_pos rfl, ih]
        rcases h0 : canonCount ws (canonical_kmer w) with _ | n
        · simp
        · cases n with
          | zero => simp
          | succ m => simp
      · rw [if_neg hc, if_neg hc, ih]
        simp

theorem mem_filter_count_iff (cs : List (List Nat)) (c d : List Nat) :
    (d ∈ Finset.filter (fun x => 2 ≤ (cs ++ [c]).count x) (cs ++ [c]).toFinset) ↔
      (d ∈ Finset.filter (fun x => 2 ≤ cs.count x) cs.toFinset ∨
        (d = c ∧ cs.count c = 1)) := by
  have hts : (cs ++ [c]).toFinset = insert c cs.toFinset := by
    rw [List.toFinset_append]
    have h1 : ([c] : List (List Nat)).toFinset = {c} := by simp
    rw [h1, Finset.union_comm, ← Finset.insert_eq]
  rw [hts]
  simp only [Finset.mem_filter, Finset.mem_insert, List.mem_toFinset]
  have hcnt : (cs ++ [c]).count d = cs.count d + (if c = d then 1 else 0) := by
    simp [List.count_singleton]
  rw [hcnt]
  by_cases hd : d = c
  · subst hd
    rw [if_pos rfl]
    have hmem : d ∈ cs ↔ 0 < cs.count d := List.count_pos_iff.symm
    constructor
    · rintro ⟨_, h2⟩
      by_cases h1 : cs.count d = 1
      · exact Or.inr ⟨rfl, h1⟩
      · exact Or.inl ⟨hmem.mpr (by omega), by omega⟩
    · rintro (⟨hin, h2⟩ | ⟨_, h1⟩)
      · exact ⟨Or.inl rfl, by omega⟩
      · exact ⟨Or.inl rfl, by omega⟩
  · rw [if_neg (fun hh => hd hh.symm), Nat.add_zero]
    constructor
    · rintro ⟨hd2 | hin, h2⟩
      · exact absurd hd2 hd
      · exact Or.inl ⟨hin, h2⟩
    · rintro (⟨hin, h2⟩ | ⟨hdc, _⟩)
      · exact ⟨Or.inr hin, h2⟩
      · exact absurd hdc hd

theorem card_filter_count_append (cs : List (List Nat)) (c : List Nat) :
    (Finset.filter (fun x => 2 ≤ (cs ++ [c]).count x) (cs ++ [c]).toFinset).card =
      (Finset.filter (fun x => 2 ≤ cs.count x) cs.toFinset).card +
        (if cs.count c = 1 then 1 else 0) := by
  by_cases h1 : cs.count c = 1
  · have hfil : Finset.filter (fun x => 2 ≤ (cs ++ [c]).count x) (cs ++ [c]).toFinset =
        insert c (Finset.filter (fun x => 2 ≤ cs.count x) cs.toFinset) := by
      apply Finset.ext
      intro d
      rw [mem_filter_count_iff, Finset.mem_insert]
      constructor
      · rintro (h | ⟨hdc, _⟩)
        · exact Or.inr h
        · exact Or.inl hdc
      · rintro (hdc | h)
        · exact Or.inr ⟨hdc, h1⟩
        · exact Or.inl h
    have hnotmem : c ∉ Finset.filter (fun x => 2 ≤ cs.count x) cs.toFinset := by
      intro hmem
      rw [Finset.mem_filter] at hmem
      omega
    rw [hfil, if_pos h1, Finset.card_insert_of_not_mem hnotmem]
  · have hfil : Finset.filter (fun x => 2 ≤ (cs ++ [c]).count x) (cs ++ [c]).toFinset =
        Finset.filter (fun x => 2 ≤ cs.count x) cs.toFinset := by
      apply Finset.ext
      intro d
      rw [mem_filter_count_iff]
      constructor
      · rintro (h | ⟨_, hc1⟩)
        · exact h
        · exact absurd hc1 h1
      · exact Or.inl
    rw [hfil, if_neg h1, Nat.add_zero]

theorem solidSpec_append (ws : List (List Nat)) (w : List Nat) :
    solidSpec (ws ++ [w]) =
      solidSpec ws + (if canonCount ws (canonical_kmer w) = 1 then 1 else 0) := by
  simp only [solidSpec, canonCount]
  have hmap : (ws ++ [w]).map canonical_kmer =
      ws.map canonical_kmer ++ [canonical_kmer w] := by simp
  rw [hmap, card_filter_count_append]

theorem foldl_observe_solid (ws : List (List Nat)) :
    (ws.foldl observe initKmer).solid = solidSpec ws := by
  induction ws using List.reverseRecOn with
  | nil => simp [initKmer, solidSpec]
  | append_singleton ws w ih =>
      rw [List.foldl_append, List.foldl_cons, List.foldl_nil, observe_solid_eq, ih,
        solidSpec_append]
      congr 1
      rw [foldl_observe_lookup]
      by_cases h0 : canonCount ws (canonical_kmer w) = 0
      · rw [if_pos h0, if_neg (by omega : ¬canonCount ws (canonical_kmer w) = 1)]
        simp
      · by_cases h1 : canonCount ws (canonical_kmer w) = 1
        · rw [if_neg h0, if_pos h1, if_pos h1]
          simp
        · rw [if_neg h0, if_neg h1, if_neg h1]
          simp

/-- C4: after any stream of observed windows, a canonical k-mer's map entry
is absent exactly when it has occurred zero times, present-with-flag-false
exactly when it has occurred once, and present-with-flag-true exactly when
it has occurred at least twice; the solid counter equals the number of
distinct canonical k-mers occurring at least twice (so a k-mer occurring
once contributes 0 and one occurring two or more times contributes exactly
1); and a further observation increments the counter exactly when the
window's canonical form had occurred exactly once before. -/
theorem C4_second_occurrence_counting (ws : List (List Nat)) (w c : List Nat) :
    lookup ((ws.foldl observe initKmer).table) c =
      (if canonCount ws c = 0 then none
       else if canonCount ws c = 1 then some false
       else some true) ∧
    (ws.foldl observe initKmer).solid = solidSpec ws ∧
    ((ws ++ [w]).foldl observe initKmer).solid =
      (ws.foldl observe initKmer).solid +
        (if canonCount ws (canonical_kmer w) = 1 then 1 else 0) := by
  refine ⟨foldl_observe_lookup ws c, foldl_observe_solid ws, ?_⟩
  rw [foldl_observe_solid, foldl_observe_solid, solidSpec_append]

end UniqueKmers
